import Mathlib

/-!
# Verification of the pdfchat retrieval engine

Shallow embedding of the core of the `pdfchat` repository:

* the streaming relay of the chat route (`src/unnamed/part_000`, `POST`,
  lines 404-449),
* cosine similarity and the similarity retriever (`cosineSimilarity`,
  `retrieveRelevantChunks`, lines 30-225),
* the query-embedding client (`generateQueryEmbedding`, lines 52-113),
* the RAG message splicing and the session-consolidation fallback of the
  chat route (lines 257-344),
* the idle-session/orphan-file cleanup
  (`src/app/api/cleanup-scheduler/route.ts`, `cleanupIdleSessions`,
  lines 98-159).

JavaScript numbers are modelled by an arbitrary linear ordered field
(instantiated with `ℚ` or `ℝ`); `Math.sqrt` is passed explicitly so that the
similarity pipeline stays executable.  JavaScript `Map`s are modelled by
association lists in insertion order.  Byte streams are modelled as lists of
characters (the `TextDecoder` handles UTF-8 continuation across chunk
boundaries, so character granularity is faithful).
-/

namespace PdfChat

/-- JavaScript `String.prototype.trim`: drop leading and trailing whitespace.
(Defined structurally on the character list so that it is kernel-executable;
`String.trim` itself is defined by well-founded recursion on byte positions
and does not reduce.) -/
def trimString (s : String) : String :=
  ⟨((s.data.dropWhile Char.isWhitespace).reverse.dropWhile Char.isWhitespace).reverse⟩

/-- `p` is an initial segment of `s` (on character lists). -/
def listStartsWith : List Char → List Char → Bool
  | _, [] => true
  | [], _ :: _ => false
  | c :: cs, p :: ps => decide (c = p) && listStartsWith cs ps

/-- JavaScript `String.prototype.startsWith` (structural, kernel-executable
counterpart of `String.startsWith`). -/
def strStartsWith (s p : String) : Bool := listStartsWith s.data p.data

/-! ## Streaming relay (chat route, lines 404-449)

The relay accumulates decoded chunks in `buffer`, splits the buffer on
`'\n'`, forwards every complete line whose `trim()` is truthy followed by one
newline, keeps the trailing segment, and finally flushes the remaining buffer
as one more line when its `trim()` is truthy. -/

/-- JavaScript `line.trim()` is truthy exactly when the line still contains a
non-whitespace character. -/
def keepLine (l : List Char) : Bool := l.any fun c => !c.isWhitespace

/-- JavaScript `buffer.split('\n')`: one segment between every pair of
newlines; the empty string yields one empty segment and a trailing newline
yields a final empty segment. -/
def splitNl : List Char → List (List Char)
  | [] => [[]]
  | c :: cs =>
    let rest := splitNl cs
    if c = '\n' then [] :: rest else (c :: rest.headD []) :: rest.tail

/-- Prepend a partial segment onto the first segment of a later split. -/
def mergeSplit (x : List Char) (ls : List (List Char)) : List (List Char) :=
  (x ++ ls.headD []) :: ls.tail

/-- The lines forwarded for a list of complete segments: keep the non-blank
ones, each with exactly one newline appended
(`controller.enqueue(encoder.encode(line + '\n'))`, line 432). -/
def emitLines (ls : List (List Char)) : List (List Char) :=
  (ls.filter keepLine).map fun l => l ++ ['\n']

/-- One `reader.read()` iteration (lines 421-434): append the chunk to the
buffer, split on newline, forward every complete non-blank line, and keep the
trailing segment as the new buffer (`buffer = lines.pop() || ""`). -/
def relayStep (buffer chunk : List Char) : List (List Char) × List Char :=
  let lines := splitNl (buffer ++ chunk)
  (emitLines lines.dropLast, lines.getLastD [])

/-- The whole relay loop (lines 415-441): fold `relayStep` over the chunks,
then flush the remaining buffer as a final line when it is non-blank
(lines 437-441). -/
def relayEmissions (chunks : List (List Char)) : List (List Char) :=
  let final := chunks.foldl
    (fun acc chunk =>
      let step := relayStep acc.2 chunk
      (acc.1 ++ step.1, step.2))
    (([] : List (List Char)), ([] : List Char))
  final.1 ++ (if keepLine final.2 then [final.2 ++ ['\n']] else [])

/-- The emission behaviour the specification claims: *every* logical line of
the full byte sequence is forwarded with one newline appended; a trailing
partial line is flushed as a final line (a trailing newline yields no extra
empty line).  This follows the claim's words, to be compared with
`relayEmissions`. -/
def claimedEmissions (input : List Char) : List (List Char) :=
  let lines := splitNl input
  let logical := if lines.getLastD [] = [] then lines.dropLast else lines
  logical.map fun l => l ++ ['\n']

/-! ## Document data and cosine similarity (chat route, lines 8-49)

The element type of embedding vectors is an arbitrary linear ordered field
(`ℝ` with `Real.sqrt` for the exact-value claims, `ℚ` with a concrete square
root for executable witnesses); `Math.sqrt` is an explicit parameter. -/

/-- `DocumentData` (lines 8-14): one uploaded document. -/
structure DocumentData (α : Type) where
  fileId : String
  filename : String
  chunks : List String
  embeddings : List (List α)
  createdAt : String
deriving DecidableEq

/-- `cosineSimilarity` (lines 30-49): `dot(a,b) / (|a|·|b|)`, with 0 for
mismatched lengths, empty vectors, or a zero magnitude.  The
`Array.isArray` tests are always true in the model and the `try/catch`
cannot fire (the arithmetic is total). -/
def cosineSimilarity {α : Type} [LinearOrderedField α] (sqrt : α → α)
    (a b : List α) : α :=
  if a.length ≠ b.length ∨ a.length = 0 then 0
  else
    let dotProduct := ((a.zip b).map fun p => p.1 * p.2).sum
    let magnitudeA := sqrt ((a.map fun v => v * v).sum)
    let magnitudeB := sqrt ((b.map fun v => v * v).sum)
    if magnitudeA = 0 ∨ magnitudeB = 0 then 0
    else dotProduct / (magnitudeA * magnitudeB)

/-! ## Similarity retriever (`retrieveRelevantChunks`, lines 140-225) -/

/-- One kept tuple of the retrieval scan (line 174): the trimmed chunk, its
similarity, its index, and the full chunk list of its owning document. -/
structure ChunkMatch (α : Type) where
  chunk : String
  similarity : α
  chunkIndex : Nat
  docChunks : List String
deriving DecidableEq

/-- The candidate tuples contributed by one document (lines 154-183): indices
below `min(|chunks|, |embeddings|)` whose chunk is non-blank and whose
similarity is strictly positive. -/
def gatherDocChunks {α : Type} [LinearOrderedField α] (sqrt : α → α)
    (queryEmbedding : List α) (doc : DocumentData α) : List (ChunkMatch α) :=
  (List.range (min doc.chunks.length doc.embeddings.length)).filterMap fun i =>
    let chunk := doc.chunks.getD i ""
    let chunkEmbedding := doc.embeddings.getD i []
    if (trimString chunk).length > 0 then
      let similarity := cosineSimilarity sqrt queryEmbedding chunkEmbedding
      if similarity > 0 then
        some { chunk := trimString chunk, similarity := similarity, chunkIndex := i,
               docChunks := doc.chunks }
      else none
    else none

/-- `allChunks` accumulated over every document of the session, in the
`for`-loop's discovery order (lines 152-183). -/
def gatherAllChunks {α : Type} [LinearOrderedField α] (sqrt : α → α)
    (queryEmbedding : List α) (sessionDocuments : List (String × DocumentData α)) :
    List (ChunkMatch α) :=
  sessionDocuments.foldl (fun acc kv => acc ++ gatherDocChunks sqrt queryEmbedding kv.2) []

/-- The ordering used by `sort((a, b) => b.similarity - a.similarity)`
(line 193): `a` may come before `b` iff `b`'s similarity is not larger. -/
def simDescRel {α : Type} [LinearOrderedField α] (a b : ChunkMatch α) : Prop :=
  b.similarity ≤ a.similarity

instance instSimDescRelDecidable {α : Type} [LinearOrderedField α] :
    DecidableRel (@simDescRel α _) :=
  fun a b => inferInstanceAs (Decidable (b.similarity ≤ a.similarity))

instance instSimDescRelTotal {α : Type} [LinearOrderedField α] :
    IsTotal (ChunkMatch α) simDescRel :=
  ⟨fun a b => le_total b.similarity a.similarity⟩

instance instSimDescRelTrans {α : Type} [LinearOrderedField α] :
    IsTrans (ChunkMatch α) simDescRel :=
  ⟨fun _ _ _ hab hbc => le_trans hbc hab⟩

/-- JavaScript's `Array.prototype.sort` is stable, so the stable insertion
sort over the descending-similarity relation computes the same list. -/
def sortBySimilarityDesc {α : Type} [LinearOrderedField α]
    (l : List (ChunkMatch α)) : List (ChunkMatch α) :=
  l.insertionSort simDescRel

/-- `Math.max(1, Math.min(topK, 5))` (line 194): the slice length, a natural
number between 1 and 5 whatever integer the caller passes. -/
def clampTopK (topK : Int) : Nat := (max 1 (min topK 5)).toNat

/-- `topMatches` (lines 192-194): sort all kept tuples by similarity
descending (stable) and keep the first `clampTopK topK`. -/
def topMatchesFor {α : Type} [LinearOrderedField α] (sqrt : α → α)
    (queryEmbedding : List α) (sessionDocuments : List (String × DocumentData α))
    (topK : Int) : List (ChunkMatch α) :=
  (sortBySimilarityDesc (gatherAllChunks sqrt queryEmbedding sessionDocuments)).take
    (clampTopK topK)

/-- Context expansion for one selected match (lines 199-216): optional
labelled previous chunk, the labelled match, optional labelled next chunk,
joined by a blank line.  A JavaScript string is truthy iff non-empty, hence
the `≠ ""` guards. -/
def buildContextBlock {α : Type} (m : ChunkMatch α) : String :=
  let withPrev : List String :=
    if 0 < m.chunkIndex ∧ m.docChunks.getD (m.chunkIndex - 1) "" ≠ "" then
      ["[Previous Context]: " ++ trimString (m.docChunks.getD (m.chunkIndex - 1) "")]
    else []
  let withMain := withPrev ++ ["[Main Content]: " ++ m.chunk]
  let withNext :=
    if m.chunkIndex + 1 < m.docChunks.length ∧ m.docChunks.getD (m.chunkIndex + 1) "" ≠ "" then
      withMain ++ ["[Following Context]: " ++ trimString (m.docChunks.getD (m.chunkIndex + 1) "")]
    else withMain
  String.intercalate "\n\n" withNext

/-- `retrieveRelevantChunks` (lines 140-225).  The `catch` is dead code (all
operations are total), so the model is the `try` body; the call site uses the
default `topK = 3`. -/
def retrieveRelevantChunks {α : Type} [LinearOrderedField α] (sqrt : α → α)
    (queryEmbedding : List α) (sessionDocuments : List (String × DocumentData α))
    (topK : Int) : List String :=
  if sessionDocuments.length = 0 then []
  else if queryEmbedding.length = 0 then []
  else
    let allChunks := gatherAllChunks sqrt queryEmbedding sessionDocuments
    if allChunks.length = 0 then []
    else (topMatchesFor sqrt queryEmbedding sessionDocuments topK).map buildContextBlock

/-! ## Embedding client (`generateQueryEmbedding`, lines 52-137)

The environment collects everything outside the function's control: whether
`GRAVIXLAYER_API_KEY` is set, the provider's answer (`some v` when the
response is 2xx and carries `data[0].embedding = v`, `none` for a network
error, non-2xx status or malformed body), and the `Math.random()` draws of
`generateSingleDummyEmbedding`. -/

/-- The only error the function can raise internally (line 55). -/
inductive EmbedError where
  | invalidInput
deriving DecidableEq

/-- External state of one embedding call. -/
structure EmbedEnv where
  apiKeyPresent : Bool
  providerResponse : Option (List ℚ)
  dummyVector : List ℚ
deriving DecidableEq

/-- The body of the outer `try` (lines 53-109): reject a blank query, fall
back to the dummy vector without a key, otherwise use the provider response
when it is well-formed and the dummy vector for any error or malformed body
(the inner `catch`, lines 105-109). -/
def generateQueryEmbeddingTry (env : EmbedEnv) (query : String) :
    Except EmbedError (List ℚ) :=
  if (trimString query).length = 0 then Except.error EmbedError.invalidInput
  else if !env.apiKeyPresent then Except.ok env.dummyVector
  else
    match env.providerResponse with
    | some v => Except.ok v
    | none => Except.ok env.dummyVector

/-- `generateQueryEmbedding` (lines 52-113): the outer `catch` (lines
110-113) turns every internal error — including the invalid-input rejection —
into the dummy vector, so the function never fails. -/
def generateQueryEmbedding (env : EmbedEnv) (query : String) :
    Except EmbedError (List ℚ) :=
  match generateQueryEmbeddingTry env query with
  | Except.ok v => Except.ok v
  | Except.error _ => Except.ok env.dummyVector

/-! ## RAG message splicing (chat route `POST`, lines 304-331) -/

/-- One chat message of the request body. -/
structure ChatMessage where
  role : String
  content : String
deriving DecidableEq

/-- `messages.filter((m) => m.role === "user").pop()` (line 305). -/
def lastUserMessage (messages : List ChatMessage) : Option ChatMessage :=
  (messages.filter fun m => decide (m.role = "user")).getLast?

/-- The synthesized system message (lines 319-325): the answer-only-from-
context instruction followed by the context blocks joined by the
`\n\n---\n\n` delimiter. -/
def ragContextMessage (relevantChunks : List String) : ChatMessage :=
  { role := "system",
    content := "Use the following context from uploaded documents to answer questions. If the answer is not in the context, say so clearly.\n\nContext:\n"
      ++ String.intercalate "\n\n---\n\n" relevantChunks }

/-- `processedMessages` (lines 304-331), given the context blocks returned by
retrieval: when a last user message with truthy content exists and at least
one block was retrieved, the outgoing list is
`[...messages.slice(0, -1), contextMessage, lastUserMessage]` (line 328);
otherwise the original list. -/
def processMessages (messages : List ChatMessage) (relevantChunks : List String) :
    List ChatMessage :=
  match lastUserMessage messages with
  | none => messages
  | some lum =>
    if lum.content ≠ "" then
      if 0 < relevantChunks.length then
        messages.dropLast ++ [ragContextMessage relevantChunks, lum]
      else messages
    else messages

/-- The outgoing list the claim describes, following the claim's words: the
synthesized system message is inserted immediately before the last message
whose role is user and every other message keeps its original position.  To
be compared with `processMessages`. -/
def claimedSplice (messages : List ChatMessage) (ctx : ChatMessage) :
    List ChatMessage :=
  match (messages.enum.filter fun p => decide (p.2.role = "user")).getLast? with
  | none => messages
  | some p => messages.take p.1 ++ ctx :: messages.drop p.1

/-! ## Session store and the consolidation fallback (chat route, lines 257-302)

JavaScript `Map`s are modelled by association lists in insertion order:
`set` overwrites in place or appends, `get`/`has` scan by key, `size > 0`
is non-emptiness of the entry list. -/

/-- `Map.prototype.get` composed with `has`: the value stored under `k`. -/
def mapGet {β : Type} (m : List (String × β)) (k : String) : Option β :=
  (m.find? fun p => decide (p.1 = k)).map fun p => p.2

/-- `Map.prototype.set`: overwrite the existing entry in place, else append. -/
def mapSet {β : Type} (m : List (String × β)) (k : String) (v : β) :
    List (String × β) :=
  if m.any fun p => decide (p.1 = k) then
    m.map fun p => if p.1 = k then (k, v) else p
  else m ++ [(k, v)]

/-- A session's documents: `Map<string, DocumentData>` keyed by file id. -/
abbrev DocsMap := List (String × DocumentData ℚ)

/-- The global store: `Map<string, Map<string, DocumentData>>`. -/
abbrev DocStore := List (String × DocsMap)

/-- The consolidation loop (lines 280-291): copy every document of every
non-empty session into one fresh map, in store iteration order (a later
session overwrites an equal document id). -/
def consolidateAll (store : DocStore) : DocsMap :=
  store.foldl
    (fun sessionDocs kv =>
      if 0 < kv.2.length then
        kv.2.foldl (fun acc dd => mapSet acc dd.1 dd.2) sessionDocs
      else sessionDocs)
    []

/-- Resolution of the document set used for RAG (lines 269-298): take the
current session's documents when present; when they are absent or empty and
the store is non-empty, consolidate all sessions and — if a session id was
supplied and the union is non-empty — persist the union under that id.
Returns the documents handed to retrieval and the store after the request. -/
def resolveRagDocs (store : DocStore) (sessionId : Option String) :
    Option DocsMap × DocStore :=
  let sessionDocs :=
    match sessionId with
    | some sid => mapGet store sid
    | none => none
  if (sessionDocs.getD []).length = 0 ∧ 0 < store.length then
    let consolidated := consolidateAll store
    match sessionId with
    | some sid =>
      if 0 < consolidated.length then (some consolidated, mapSet store sid consolidated)
      else (some consolidated, store)
    | none => (some consolidated, store)
  else (sessionDocs, store)

/-! ## Idle-session and orphan-file cleanup
(`src/app/api/cleanup-scheduler/route.ts`, `cleanupIdleSessions`, lines 98-159)

The mutable world of the sweep: the activity map `sessionMetaStore`
(session id ↦ `lastActivity` in epoch milliseconds), the global
`documentStore`, and the uploads directory (file name ↦ mtime in epoch
milliseconds).  Timestamps are integers; `fs` calls are total in the model
(per-file failures only skip files that are already gone). -/

structure CleanupState where
  sessionMeta : List (String × Int)
  documentStore : DocStore
  files : List (String × Int)
deriving DecidableEq

/-- The body of the idle loop for one activity entry (lines 109-132): when
`now - lastActivity > idleMs`, delete every upload whose name starts with
`sessionId + "__"` and drop the session from both stores. -/
def reclaimIdleSession (now idleMs : Int) (st : CleanupState)
    (entry : String × Int) : CleanupState :=
  if now - entry.2 > idleMs then
    { sessionMeta := st.sessionMeta.filter fun p => !decide (p.1 = entry.1),
      documentStore := st.documentStore.filter fun p => !decide (p.1 = entry.1),
      files := st.files.filter fun f => !strStartsWith f.1 (entry.1 ++ "__") }
  else st

/-- The fixed orphan age: one hour in milliseconds (line 138). -/
def orphanMs : Int := 60 * 60 * 1000

/-- `cleanupIdleSessions` (lines 98-159): the idle loop over the activity
entries, then the session-agnostic sweep deleting every file with
`mtime < now - 1h` (lines 136-155). -/
def cleanupIdleSessions (now idleMs : Int) (st : CleanupState) : CleanupState :=
  let afterIdle := st.sessionMeta.foldl (reclaimIdleSession now idleMs) st
  { afterIdle with
    files := afterIdle.files.filter fun f => !decide (f.2 < now - orphanMs) }

/-- `true` iff some activity entry is idle and keyed by `k` — the sessions
whose store entries the idle loop removes. -/
def idleHit (now idleMs : Int) (meta : List (String × Int)) (k : String) : Bool :=
  meta.any fun e => decide (now - e.2 > idleMs) && decide (e.1 = k)

/-- `true` iff some idle activity entry's `sessionId + "__"` is a prefix of
the file name — the files the idle loop deletes. -/
def idleFileHit (now idleMs : Int) (meta : List (String × Int)) (name : String) :
    Bool :=
  meta.any fun e => decide (now - e.2 > idleMs) && strStartsWith name (e.1 ++ "__")

/-! ## Lemmas about the streaming relay -/

lemma splitNl_ne_nil (l : List Char) : splitNl l ≠ [] := by
  cases l with
  | nil => simp [splitNl]
  | cons c cs =>
    simp only [splitNl]
    split <;> simp

lemma splitNl_cons (c : Char) (cs : List Char) :
    splitNl (c :: cs) =
      if c = '\n' then [] :: splitNl cs
      else (c :: (splitNl cs).headD []) :: (splitNl cs).tail := rfl

lemma newline_not_mem_getLastD_splitNl (l : List Char) :
    '\n' ∉ (splitNl l).getLastD [] := by
  induction l with
  | nil => simp [splitNl]
  | cons c cs ih =>
    obtain ⟨z, zs, hz⟩ := List.exists_cons_of_ne_nil (splitNl_ne_nil cs)
    rw [splitNl_cons]
    rw [hz] at ih ⊢
    by_cases hc : c = '\n'
    · rw [if_pos hc]
      simpa [List.getLastD_cons] using ih
    · rw [if_neg hc]
      cases zs with
      | nil =>
        simp only [List.headD, List.tail_cons, List.getLastD] at ih ⊢
        intro hmem
        rcases List.mem_cons.mp hmem with h | h
        · exact hc h.symm
        · exact ih h
      | cons w ws => simpa [List.getLastD_cons] using ih

lemma splitNl_of_not_mem_newline {l : List Char} (h : '\n' ∉ l) :
    splitNl l = [l] := by
  induction l with
  | nil => simp [splitNl]
  | cons c cs ih =>
    have hc : c ≠ '\n' := fun hceq => h (hceq ▸ List.mem_cons_self c cs)
    have hcs : '\n' ∉ cs := fun hmem => h (List.mem_cons_of_mem c hmem)
    rw [splitNl_cons, if_neg hc, ih hcs]
    simp

lemma splitNl_append (a b : List Char) :
    splitNl (a ++ b) =
      (splitNl a).dropLast ++ mergeSplit ((splitNl a).getLastD []) (splitNl b) := by
  induction a with
  | nil =>
    obtain ⟨z, zs, hz⟩ := List.exists_cons_of_ne_nil (splitNl_ne_nil b)
    simp [splitNl, mergeSplit, hz]
  | cons c cs ih =>
    obtain ⟨z, zs, hz⟩ := List.exists_cons_of_ne_nil (splitNl_ne_nil cs)
    rw [List.cons_append, splitNl_cons, splitNl_cons, ih, hz]
    by_cases hc : c = '\n'
    · rw [if_pos hc, if_pos hc]
      simp [List.getLastD_cons]
    · rw [if_neg hc, if_neg hc]
      cases zs with
      | nil =>
        obtain ⟨y, ys, hy⟩ := List.exists_cons_of_ne_nil (splitNl_ne_nil b)
        simp [mergeSplit, hy, List.getLastD]
      | cons w ws => simp [mergeSplit, List.getLastD_cons]

lemma emitLines_append (l₁ l₂ : List (List Char)) :
    emitLines (l₁ ++ l₂) = emitLines l₁ ++ emitLines l₂ := by
  simp [emitLines]

lemma relay_foldl_characterization (chunks : List (List Char)) :
    ∀ (E : List (List Char)) (buf : List Char), '\n' ∉ buf →
      chunks.foldl
        (fun acc chunk =>
          let step := relayStep acc.2 chunk
          (acc.1 ++ step.1, step.2))
        (E, buf) =
      (E ++ emitLines ((splitNl (buf ++ chunks.flatten)).dropLast),
        (splitNl (buf ++ chunks.flatten)).getLastD []) := by
  induction chunks with
  | nil =>
    intro E buf hbuf
    simp [splitNl_of_not_mem_newline hbuf, emitLines]
  | cons ch cs ih =>
    intro E buf hbuf
    have hbuf' : '\n' ∉ (splitNl (buf ++ ch)).getLastD [] :=
      newline_not_mem_getLastD_splitNl (buf ++ ch)
    rw [List.foldl_cons]
    show List.foldl
        (fun acc chunk =>
          let step := relayStep acc.2 chunk
          (acc.1 ++ step.1, step.2))
        (E ++ emitLines (splitNl (buf ++ ch)).dropLast,
          (splitNl (buf ++ ch)).getLastD []) cs =
      (E ++ emitLines (splitNl (buf ++ (ch :: cs).flatten)).dropLast,
        (splitNl (buf ++ (ch :: cs).flatten)).getLastD [])
    rw [ih (E ++ emitLines (splitNl (buf ++ ch)).dropLast)
      ((splitNl (buf ++ ch)).getLastD []) hbuf']
    have hsplit : splitNl (buf ++ (ch :: cs).flatten) =
        (splitNl (buf ++ ch)).dropLast ++
          splitNl ((splitNl (buf ++ ch)).getLastD [] ++ cs.flatten) := by
      have h1 : buf ++ (ch :: cs).flatten = (buf ++ ch) ++ cs.flatten := by
        simp [List.flatten_cons, List.append_assoc]
      rw [h1, splitNl_append (buf ++ ch) cs.flatten,
        splitNl_append ((splitNl (buf ++ ch)).getLastD []) cs.flatten,
        splitNl_of_not_mem_newline hbuf']
      simp [List.getLastD]
    have hne : splitNl ((splitNl (buf ++ ch)).getLastD [] ++ cs.flatten) ≠ [] :=
      splitNl_ne_nil _
    obtain ⟨y, ys, hy⟩ := List.exists_cons_of_ne_nil hne
    rw [hsplit, hy]
    rw [List.dropLast_append_cons]
    simp only [emitLines_append, List.append_assoc]
    have hsome : (y :: ys).getLast?.isSome := by
      rw [List.getLast?_isSome]
      simp
    obtain ⟨a, ha⟩ := Option.isSome_iff_exists.mp hsome
    have hlast : ((splitNl (buf ++ ch)).dropLast ++ y :: ys).getLastD [] =
        (y :: ys).getLastD [] := by
      simp [List.getLastD_eq_getLast?, List.getLast?_append, ha, Option.or]
    rw [hlast]

lemma emitLines_singleton (l : List Char) :
    emitLines [l] = if keepLine l then [l ++ ['\n']] else [] := by
  by_cases h : keepLine l <;> simp [emitLines, List.filter_cons, h]

lemma relayEmissions_characterization (chunks : List (List Char)) :
    relayEmissions chunks = emitLines (splitNl chunks.flatten) := by
  unfold relayEmissions
  rw [relay_foldl_characterization chunks [] [] (by simp)]
  simp only [List.nil_append]
  have hne : splitNl chunks.flatten ≠ [] := splitNl_ne_nil _
  have hgld : (splitNl chunks.flatten).getLastD [] =
      (splitNl chunks.flatten).getLast hne := by
    rw [List.getLastD_eq_getLast?, List.getLast?_eq_getLast _ hne]
    rfl
  rw [hgld]
  conv_rhs => rw [← List.dropLast_append_getLast hne]
  rw [emitLines_append, emitLines_singleton]

/-! ## Claim theorems: streaming relay (C2, C9) -/

/-- **C2, counterexample.** The claim asserts the relay forwards *every*
logical line; on the provider output `"a\n\nb"` (in one chunk) the relay
drops the empty middle line, while the claimed behaviour keeps it. -/
theorem c2_counterexample :
    relayEmissions [['a', '\n', '\n', 'b']] = [['a', '\n'], ['b', '\n']] ∧
    claimedEmissions ['a', '\n', '\n', 'b'] = [['a', '\n'], ['\n'], ['b', '\n']] ∧
    relayEmissions [['a', '\n', '\n', 'b']] ≠ claimedEmissions ['a', '\n', '\n', 'b'] := by
  decide

/-- **C2, amended.** For every provider character sequence and every way of
splitting it into read chunks (including splits mid-line), the relay emits
exactly the logical lines of the full sequence that contain a non-whitespace
character (whitespace-only lines are discarded), in order, each terminated by
exactly one newline, with any trailing partial line flushed at end of
stream; since the output depends only on the flattened sequence, it is
identical across all chunkings of the same bytes. -/
theorem c2_relay_chunking_amended (chunks : List (List Char)) :
    relayEmissions chunks = emitLines (splitNl chunks.flatten) :=
  relayEmissions_characterization chunks

/-- **C9.** Every line the relay emits contains at least one non-whitespace
character: provider lines that are empty or whitespace-only are silently
discarded and never forwarded. -/
theorem c9_no_blank_lines (chunks : List (List Char)) (e : List Char)
    (he : e ∈ relayEmissions chunks) :
    e.any (fun c => !c.isWhitespace) = true := by
  rw [relayEmissions_characterization] at he
  simp only [emitLines, List.mem_map, List.mem_filter] at he
  obtain ⟨l, ⟨_, hkeep⟩, rfl⟩ := he
  rw [List.any_append]
  simp only [keepLine] at hkeep
  simp [hkeep]

/-- **C9, witness.** The single chunk `"a\n"` makes the relay emit the line
`"a\n"`, which indeed contains a non-whitespace character. -/
theorem c9_witness : (['a', '\n'] : List Char).any (fun c => !c.isWhitespace) = true :=
  c9_no_blank_lines [['a', '\n']] ['a', '\n'] (by decide)

/-! ## Lemmas about cosine similarity -/

lemma zipMul_comm {α : Type} [LinearOrderedField α] :
    ∀ a b : List α,
      ((a.zip b).map fun p => p.1 * p.2).sum = ((b.zip a).map fun p => p.1 * p.2).sum := by
  intro a
  induction a with
  | nil => intro b; cases b <;> simp
  | cons x xs ih =>
    intro b
    cases b with
    | nil => simp
    | cons y ys => simp [ih ys, mul_comm]

lemma zip_self_mul {α : Type} [LinearOrderedField α] (v : List α) :
    ((v.zip v).map fun p => p.1 * p.2) = v.map fun x => x * x := by
  induction v with
  | nil => simp
  | cons x xs ih => simp [ih]

lemma sumSq_nonneg {α : Type} [LinearOrderedField α] (v : List α) :
    0 ≤ (v.map fun x => x * x).sum := by
  induction v with
  | nil => simp
  | cons x xs ih => simpa using add_nonneg (mul_self_nonneg x) ih

lemma sumSq_pos {α : Type} [LinearOrderedField α] {v : List α} {x : α}
    (hx : x ∈ v) (hne : x ≠ 0) : 0 < (v.map fun y => y * y).sum := by
  induction v with
  | nil => cases hx
  | cons y ys ih =>
    rcases List.mem_cons.mp hx with rfl | hmem
    · simpa using add_pos_of_pos_of_nonneg (mul_self_pos.mpr hne) (sumSq_nonneg ys)
    · simpa using add_pos_of_nonneg_of_pos (mul_self_nonneg y) (ih hmem)

lemma cosineSimilarity_comm {α : Type} [LinearOrderedField α] (sqrt : α → α)
    (a b : List α) : cosineSimilarity sqrt a b = cosineSimilarity sqrt b a := by
  simp only [cosineSimilarity]
  by_cases hg : a.length ≠ b.length ∨ a.length = 0
  · have hg' : b.length ≠ a.length ∨ b.length = 0 := by
      rcases hg with h | h
      · exact Or.inl (Ne.symm h)
      · by_cases hab : a.length = b.length
        · exact Or.inr (hab ▸ h)
        · exact Or.inl fun hba => hab hba.symm
    rw [if_pos hg, if_pos hg']
  · have hg' : ¬(b.length ≠ a.length ∨ b.length = 0) := by
      push_neg at hg ⊢
      omega
    rw [if_neg hg, if_neg hg', zipMul_comm]
    by_cases hA : sqrt ((a.map fun v => v * v).sum) = 0 <;>
      by_cases hB : sqrt ((b.map fun v => v * v).sum) = 0 <;>
      simp [hA, hB, mul_comm]

/-! ## Claim theorem: cosine similarity (C8) -/

/-- **C8.** Cosine similarity (as implemented, with the real square root) is
symmetric; it returns 0 when the vectors differ in length, are empty, or
either has zero magnitude (sum of squares zero); and a non-zero vector
compared with itself yields exactly 1. -/
theorem c8_cosine_properties (a b : List ℝ) :
    cosineSimilarity Real.sqrt a b = cosineSimilarity Real.sqrt b a ∧
    (a.length ≠ b.length → cosineSimilarity Real.sqrt a b = 0) ∧
    (a = [] → cosineSimilarity Real.sqrt a b = 0) ∧
    (((a.map fun v => v * v).sum = 0 ∨ (b.map fun v => v * v).sum = 0) →
      cosineSimilarity Real.sqrt a b = 0) ∧
    ((∃ x ∈ a, x ≠ 0) → cosineSimilarity Real.sqrt a a = 1) := by
  refine ⟨cosineSimilarity_comm Real.sqrt a b, ?_, ?_, ?_, ?_⟩
  · intro hlen
    simp only [cosineSimilarity]
    rw [if_pos (Or.inl hlen)]
  · intro ha
    simp only [cosineSimilarity]
    rw [if_pos (Or.inr (by simp [ha]))]
  · intro hmag
    simp only [cosineSimilarity]
    by_cases hg : a.length ≠ b.length ∨ a.length = 0
    · rw [if_pos hg]
    · rw [if_neg hg]
      have hz : Real.sqrt ((a.map fun v => v * v).sum) = 0 ∨
          Real.sqrt ((b.map fun v => v * v).sum) = 0 := by
        rcases hmag with h | h
        · exact Or.inl (by rw [h, Real.sqrt_zero])
        · exact Or.inr (by rw [h, Real.sqrt_zero])
      rw [if_pos hz]
  · rintro ⟨x, hx, hxne⟩
    have hS : 0 < (a.map fun v => v * v).sum := sumSq_pos hx hxne
    have hlen : a.length ≠ 0 := by
      simpa [List.length_eq_zero] using List.ne_nil_of_mem hx
    simp only [cosineSimilarity]
    rw [if_neg (by push_neg; exact ⟨rfl, hlen⟩)]
    have hsqrt : Real.sqrt ((a.map fun v => v * v).sum) ≠ 0 :=
      ne_of_gt (Real.sqrt_pos.mpr hS)
    rw [if_neg (by push_neg; exact ⟨hsqrt, hsqrt⟩), zip_self_mul,
      Real.mul_self_sqrt hS.le]
    exact div_self (ne_of_gt hS)

/-- **C8, witness.** At the concrete non-zero vector `[1, 0]`, the theorem
gives `cosineSimilarity Real.sqrt [1, 0] [1, 0] = 1`. -/
theorem c8_witness : cosineSimilarity Real.sqrt [(1 : ℝ), 0] [(1 : ℝ), 0] = 1 :=
  (c8_cosine_properties [(1 : ℝ), 0] [(1 : ℝ), 0]).2.2.2.2
    ⟨1, by simp, one_ne_zero⟩

/-! ## Lemmas about the retriever -/

lemma foldl_append_eq {β γ : Type} (f : γ → List β) :
    ∀ (l : List γ) (acc : List β),
      l.foldl (fun a x => a ++ f x) acc = acc ++ (l.map f).flatten := by
  intro l
  induction l with
  | nil => intro acc; simp
  | cons x xs ih => intro acc; simp [ih, List.append_assoc]

lemma gatherAllChunks_eq {α : Type} [LinearOrderedField α] (sqrt : α → α)
    (q : List α) (docs : List (String × DocumentData α)) :
    gatherAllChunks sqrt q docs =
      (docs.map fun kv => gatherDocChunks sqrt q kv.2).flatten := by
  simpa [gatherAllChunks] using
    foldl_append_eq (fun kv : String × DocumentData α => gatherDocChunks sqrt q kv.2) docs []

lemma similarity_pos_of_mem_gatherDoc {α : Type} [LinearOrderedField α]
    {sqrt : α → α} {q : List α} {doc : DocumentData α} {c : ChunkMatch α}
    (hc : c ∈ gatherDocChunks sqrt q doc) : 0 < c.similarity := by
  simp only [gatherDocChunks, List.mem_filterMap, List.mem_range] at hc
  obtain ⟨i, _, hi⟩ := hc
  split_ifs at hi with h1 h2
  injection hi with h
  rw [← h]
  exact h2

lemma similarity_pos_of_mem_gatherAll {α : Type} [LinearOrderedField α]
    {sqrt : α → α} {q : List α} {docs : List (String × DocumentData α)}
    {c : ChunkMatch α} (hc : c ∈ gatherAllChunks sqrt q docs) : 0 < c.similarity := by
  rw [gatherAllChunks_eq] at hc
  simp only [List.mem_flatten, List.mem_map] at hc
  obtain ⟨l, ⟨kv, _, rfl⟩, hcl⟩ := hc
  exact similarity_pos_of_mem_gatherDoc hcl

lemma gatherDocChunks_nil_query {α : Type} [LinearOrderedField α] (sqrt : α → α)
    (doc : DocumentData α) : gatherDocChunks sqrt [] doc = [] := by
  rw [gatherDocChunks]
  rw [List.filterMap_eq_nil_iff]
  intro i _
  simp only
  by_cases h1 : (trimString (doc.chunks.getD i "")).length > 0
  · rw [if_pos h1]
    have hz : cosineSimilarity sqrt ([] : List α) (doc.embeddings.getD i []) = 0 := by
      simp [cosineSimilarity]
    rw [if_neg (by rw [hz]; exact lt_irrefl 0)]
  · rw [if_neg h1]

lemma gatherAllChunks_nil_query {α : Type} [LinearOrderedField α] (sqrt : α → α)
    (docs : List (String × DocumentData α)) : gatherAllChunks sqrt [] docs = [] := by
  rw [gatherAllChunks_eq]
  rw [List.flatten_eq_nil_iff]
  intro l hl
  simp only [List.mem_map] at hl
  obtain ⟨kv, _, rfl⟩ := hl
  exact gatherDocChunks_nil_query sqrt kv.2

lemma filter_orderedInsert_of_key {α : Type} [LinearOrderedField α] (s : α)
    (x : ChunkMatch α) (hx : x.similarity = s) :
    ∀ l : List (ChunkMatch α),
      (List.orderedInsert simDescRel x l).filter (fun c => decide (c.similarity = s))
        = x :: l.filter (fun c => decide (c.similarity = s)) := by
  intro l
  induction l with
  | nil => simp [hx]
  | cons y ys ih =>
    by_cases hr : simDescRel x y
    · rw [List.orderedInsert, if_pos hr]
      simp [hx]
    · rw [List.orderedInsert, if_neg hr]
      have hy : y.similarity ≠ s := fun heq => hr (le_of_eq (heq.trans hx.symm))
      rw [List.filter_cons, List.filter_cons]
      simp only [decide_eq_true_eq, if_neg hy]
      exact ih

lemma filter_orderedInsert_of_ne {α : Type} [LinearOrderedField α] (s : α)
    (x : ChunkMatch α) (hx : x.similarity ≠ s) :
    ∀ l : List (ChunkMatch α),
      (List.orderedInsert simDescRel x l).filter (fun c => decide (c.similarity = s))
        = l.filter (fun c => decide (c.similarity = s)) := by
  intro l
  induction l with
  | nil => simp [hx]
  | cons y ys ih =>
    by_cases hr : simDescRel x y
    · rw [List.orderedInsert, if_pos hr, List.filter_cons]
      simp only [decide_eq_true_eq, if_neg hx]
    · rw [List.orderedInsert, if_neg hr, List.filter_cons, List.filter_cons]
      by_cases hy : y.similarity = s <;> simp [hy, ih]

lemma filter_sortBySimilarityDesc {α : Type} [LinearOrderedField α] (s : α) :
    ∀ l : List (ChunkMatch α),
      (sortBySimilarityDesc l).filter (fun c => decide (c.similarity = s))
        = l.filter (fun c => decide (c.similarity = s)) := by
  intro l
  induction l with
  | nil => rfl
  | cons x xs ih =>
    simp only [sortBySimilarityDesc, List.insertionSort] at ih ⊢
    by_cases hx : x.similarity = s
    · rw [filter_orderedInsert_of_key s x hx, List.filter_cons]
      simp only [decide_eq_true_eq, if_pos hx]
      rw [ih]
    · rw [filter_orderedInsert_of_ne s x hx, List.filter_cons]
      simp only [decide_eq_true_eq, if_neg hx]
      rw [ih]

/-! ## Claim theorems: retriever ordering/clamping (C6) -/

/-- **C6.**  For every query embedding, document set and integer `topK`
(including `topK ≤ 0` and `topK > 5`): the retriever returns at most
`clamp(topK, 1, 5)` blocks; the returned blocks are exactly the context
blocks of the selected matches; only candidates with strictly positive
similarity are gathered; the selected matches are ordered by non-increasing
similarity; and, for every similarity value, the selected matches with that
similarity form a prefix of the gathered candidates with that similarity
(ties are broken by discovery order — stability of the sort). -/
theorem c6_retrieve_clamp_order {α : Type} [LinearOrderedField α] (sqrt : α → α)
    (q : List α) (docs : List (String × DocumentData α)) (topK : Int) :
    (retrieveRelevantChunks sqrt q docs topK).length ≤ clampTopK topK ∧
    retrieveRelevantChunks sqrt q docs topK
      = (topMatchesFor sqrt q docs topK).map buildContextBlock ∧
    (∀ c ∈ gatherAllChunks sqrt q docs, 0 < c.similarity) ∧
    (topMatchesFor sqrt q docs topK).Sorted simDescRel ∧
    (∀ s : α, ∃ t,
      (topMatchesFor sqrt q docs topK).filter (fun c => decide (c.similarity = s)) ++ t
        = (gatherAllChunks sqrt q docs).filter (fun c => decide (c.similarity = s))) := by
  refine ⟨?_, ?_, fun c hc => similarity_pos_of_mem_gatherAll hc, ?_, ?_⟩
  · simp only [retrieveRelevantChunks]
    split_ifs with h1 h2 h3
    · exact Nat.zero_le _
    · exact Nat.zero_le _
    · exact Nat.zero_le _
    · rw [List.length_map, topMatchesFor, List.length_take]
      exact min_le_left _ _
  · simp only [retrieveRelevantChunks]
    split_ifs with h1 h2 h3
    · have hd : docs = [] := List.length_eq_zero.mp h1
      subst hd
      simp [topMatchesFor, sortBySimilarityDesc, gatherAllChunks]
    · have hq : q = [] := List.length_eq_zero.mp h2
      subst hq
      simp [topMatchesFor, sortBySimilarityDesc, gatherAllChunks_nil_query]
    · have hg : gatherAllChunks sqrt q docs = [] := List.length_eq_zero.mp h3
      simp [topMatchesFor, sortBySimilarityDesc, hg]
    · rfl
  · rw [topMatchesFor]
    exact List.Pairwise.sublist (List.take_sublist _ _)
      (List.sorted_insertionSort simDescRel _)
  · intro s
    refine ⟨((sortBySimilarityDesc (gatherAllChunks sqrt q docs)).drop
      (clampTopK topK)).filter (fun c => decide (c.similarity = s)), ?_⟩
    rw [topMatchesFor, ← List.filter_append, List.take_append_drop,
      filter_sortBySimilarityDesc]

/-- **C6, witness.**  On a one-document corpus over `ℚ` (with the identity as
square root on the magnitudes, which are 1), the single chunk `"a"` with
embedding `[1]` matches the query `[1]` with similarity 1, and the theorem
yields its strict positivity. -/
theorem c6_witness :
    0 < (ChunkMatch.mk "a" (1 : ℚ) 0 ["a"]).similarity := by
  apply (c6_retrieve_clamp_order (fun x => x) [(1 : ℚ)]
      [("d1", DocumentData.mk "f1" "a.pdf" ["a"] [[1]] "t")] 3).2.2.1
  have htrim : trimString "a" = "a" := by decide
  have hsim : cosineSimilarity (fun x => x) [(1 : ℚ)] [(1 : ℚ)] = 1 := by
    norm_num [cosineSimilarity]
  norm_num [gatherAllChunks, gatherDocChunks, List.range_succ, htrim, hsim]
  decide

/-! ## Lemmas about context-block assembly -/

lemma strAppend_assoc (a b c : String) : a ++ b ++ c = a ++ (b ++ c) := by
  rcases a with ⟨da⟩
  rcases b with ⟨db⟩
  rcases c with ⟨dc⟩
  exact congrArg String.mk (List.append_assoc da db dc)

lemma intercalate_one (s a : String) : String.intercalate s [a] = a := rfl

lemma intercalate_two (s a b : String) : String.intercalate s [a, b] = a ++ s ++ b := rfl

lemma intercalate_three (s a b c : String) :
    String.intercalate s [a, b, c] = a ++ s ++ b ++ s ++ c := rfl

/-! ## Claim theorem: context expansion (C7) -/

/-- **C7.** For every selected match, the context block contains the previous
chunk labelled as preceding context exactly when the index is positive and
that chunk is non-empty, always the matched chunk labelled as main content,
and the next chunk labelled as following context exactly when the index is
not the last one and that chunk is non-empty — the four shape cases spelled
out (in particular: a match at index 0 yields main + following only, a match
at the last index yields preceding + main only, and a single-chunk document
yields main content alone). -/
theorem c7_context_expansion {α : Type} (m : ChunkMatch α) :
    (0 < m.chunkIndex → m.docChunks.getD (m.chunkIndex - 1) "" ≠ "" →
      m.chunkIndex + 1 < m.docChunks.length → m.docChunks.getD (m.chunkIndex + 1) "" ≠ "" →
      buildContextBlock m =
        "[Previous Context]: " ++ trimString (m.docChunks.getD (m.chunkIndex - 1) "") ++
          "\n\n" ++ "[Main Content]: " ++ m.chunk ++
          "\n\n" ++ "[Following Context]: " ++ trimString (m.docChunks.getD (m.chunkIndex + 1) "")) ∧
    (0 < m.chunkIndex → m.docChunks.getD (m.chunkIndex - 1) "" ≠ "" →
      (¬ (m.chunkIndex + 1 < m.docChunks.length) ∨ m.docChunks.getD (m.chunkIndex + 1) "" = "") →
      buildContextBlock m =
        "[Previous Context]: " ++ trimString (m.docChunks.getD (m.chunkIndex - 1) "") ++
          "\n\n" ++ "[Main Content]: " ++ m.chunk) ∧
    ((m.chunkIndex = 0 ∨ m.docChunks.getD (m.chunkIndex - 1) "" = "") →
      m.chunkIndex + 1 < m.docChunks.length → m.docChunks.getD (m.chunkIndex + 1) "" ≠ "" →
      buildContextBlock m =
        "[Main Content]: " ++ m.chunk ++
          "\n\n" ++ "[Following Context]: " ++ trimString (m.docChunks.getD (m.chunkIndex + 1) "")) ∧
    ((m.chunkIndex = 0 ∨ m.docChunks.getD (m.chunkIndex - 1) "" = "") →
      (¬ (m.chunkIndex + 1 < m.docChunks.length) ∨ m.docChunks.getD (m.chunkIndex + 1) "" = "") →
      buildContextBlock m = "[Main Content]: " ++ m.chunk) := by
  refine ⟨?_, ?_, ?_, ?_⟩
  · intro h1 h2 h3 h4
    simp only [buildContextBlock]
    rw [if_pos (And.intro h3 h4), if_pos (And.intro h1 h2)]
    simp only [List.cons_append, List.nil_append]
    rw [intercalate_three]
    simp only [strAppend_assoc]
  · intro h1 h2 hno
    have hneg : ¬ (m.chunkIndex + 1 < m.docChunks.length ∧
        m.docChunks.getD (m.chunkIndex + 1) "" ≠ "") :=
      fun hcon => hno.elim (fun h => h hcon.1) (fun h => hcon.2 h)
    simp only [buildContextBlock]
    rw [if_neg hneg, if_pos (And.intro h1 h2)]
    simp only [List.cons_append, List.nil_append]
    rw [intercalate_two]
    simp only [strAppend_assoc]
  · intro hno h3 h4
    have hneg : ¬ (0 < m.chunkIndex ∧ m.docChunks.getD (m.chunkIndex - 1) "" ≠ "") := by
      rcases hno with h0 | hpre
      · exact fun hcon => absurd hcon.1 (by simp [h0])
      · exact fun hcon => hcon.2 hpre
    simp only [buildContextBlock]
    rw [if_pos (And.intro h3 h4), if_neg hneg]
    simp only [List.cons_append, List.nil_append]
    rw [intercalate_two]
    simp only [strAppend_assoc]
  · intro hno hno'
    have hneg : ¬ (0 < m.chunkIndex ∧ m.docChunks.getD (m.chunkIndex - 1) "" ≠ "") := by
      rcases hno with h0 | hpre
      · exact fun hcon => absurd hcon.1 (by simp [h0])
      · exact fun hcon => hcon.2 hpre
    have hneg' : ¬ (m.chunkIndex + 1 < m.docChunks.length ∧
        m.docChunks.getD (m.chunkIndex + 1) "" ≠ "") :=
      fun hcon => hno'.elim (fun h => h hcon.1) (fun h => hcon.2 h)
    simp only [buildContextBlock]
    rw [if_neg hneg', if_neg hneg]
    simp only [List.nil_append]
    rw [intercalate_one]

/-- **C7, witness.** A match at index 0 of the 3-chunk document
`["b", "c", "d"]`: the block is exactly main content plus following
context. -/
theorem c7_witness :
    buildContextBlock (ChunkMatch.mk "b" (1 : ℚ) 0 ["b", "c", "d"]) =
      "[Main Content]: b\n\n[Following Context]: c" := by
  have h := (c7_context_expansion (ChunkMatch.mk "b" (1 : ℚ) 0 ["b", "c", "d"])).2.2.1
    (Or.inl rfl) (by decide) (by decide)
  rw [h]
  decide

/-! ## Lemmas about the RAG message splice -/

lemma filter_getLast?_of_last {β : Type} (p : β → Bool) :
    ∀ (l : List β) (x : β), l.getLast? = some x → p x = true →
      (l.filter p).getLast? = some x := by
  intro l
  induction l with
  | nil => intro x hx _; simp at hx
  | cons y ys ih =>
    intro x hx hp
    cases ys with
    | nil =>
      simp only [List.getLast?_singleton, Option.some.injEq] at hx
      subst hx
      simp [List.filter_cons, hp]
    | cons z zs =>
      rw [List.getLast?_cons_cons] at hx
      have hrec := ih x hx hp
      rw [List.filter_cons]
      split
      · obtain ⟨L, hL⟩ : ∃ L, (z :: zs).filter p = L := ⟨_, rfl⟩
        rw [hL] at hrec ⊢
        cases L with
        | nil => simp at hrec
        | cons w ws => rw [List.getLast?_cons_cons]; exact hrec
      · exact hrec

lemma lastUserMessage_concat (ms : List ChatMessage) (lum : ChatMessage)
    (h : lum.role = "user") : lastUserMessage (ms ++ [lum]) = some lum := by
  rw [lastUserMessage]
  exact filter_getLast?_of_last _ (ms ++ [lum]) lum (List.getLast?_concat ms)
    (by simp [h])

lemma claimedSplice_concat (ms : List ChatMessage) (lum : ChatMessage)
    (ctx : ChatMessage) (h : lum.role = "user") :
    claimedSplice (ms ++ [lum]) ctx = ms ++ [ctx, lum] := by
  rw [claimedSplice]
  have henum : (ms ++ [lum]).enum = ms.enum ++ [(ms.length, lum)] := by
    rw [List.enum_append]
    rfl
  rw [henum, List.filter_append]
  have hfl : List.filter (fun p => decide (p.2.role = "user")) [(ms.length, lum)]
      = [(ms.length, lum)] := by
    simp [List.filter_cons, h]
  rw [hfl, List.getLast?_concat]
  simp only
  rw [List.take_left' (by rfl), List.drop_left' (by rfl)]

/-! ## Claim theorems: RAG message splicing (C1) -/

/-- **C1, counterexample.** When the incoming list ends with an assistant
message after the user's question, the code (`messages.slice(0, -1)` plus a
re-appended last user message) drops the trailing assistant message and
duplicates the user message, instead of inserting the system message
immediately before the last user message with all other messages
preserved. -/
theorem c1_counterexample :
    processMessages [⟨"user", "hi"⟩, ⟨"assistant", "hello"⟩] ["ctx"] =
      [⟨"user", "hi"⟩, ragContextMessage ["ctx"], ⟨"user", "hi"⟩] ∧
    claimedSplice [⟨"user", "hi"⟩, ⟨"assistant", "hello"⟩] (ragContextMessage ["ctx"]) =
      [ragContextMessage ["ctx"], ⟨"user", "hi"⟩, ⟨"assistant", "hello"⟩] ∧
    processMessages [⟨"user", "hi"⟩, ⟨"assistant", "hello"⟩] ["ctx"] ≠
      claimedSplice [⟨"user", "hi"⟩, ⟨"assistant", "hello"⟩] (ragContextMessage ["ctx"]) := by
  refine ⟨by decide, by decide, by decide⟩

/-- **C1, amended.** Provided additionally that the *final* message of the
incoming list is the last user message (the normal chat shape: the request
ends with the user's new question), with non-empty content and at least one
retrieved context block, the outgoing list is the incoming list with exactly
the synthesized system message (instruction followed by the context blocks
joined by the `\n\n---\n\n` delimiter) inserted immediately before that last
user message, all other messages preserved in their original order. -/
theorem c1_splice_amended (messages : List ChatMessage) (lum : ChatMessage)
    (chunks : List String) (hlast : messages.getLast? = some lum)
    (hrole : lum.role = "user") (hcontent : lum.content ≠ "")
    (hchunks : chunks ≠ []) :
    processMessages messages chunks
      = messages.dropLast ++ [ragContextMessage chunks, lum] ∧
    processMessages messages chunks
      = claimedSplice messages (ragContextMessage chunks) := by
  obtain ⟨ms, rfl⟩ := List.getLast?_eq_some_iff.mp hlast
  have hlum : lastUserMessage (ms ++ [lum]) = some lum := lastUserMessage_concat ms lum hrole
  have hproc : processMessages (ms ++ [lum]) chunks = ms ++ [ragContextMessage chunks, lum] := by
    rw [processMessages, hlum]
    simp only [if_pos hcontent, List.length_pos.mpr hchunks, if_pos]
    rw [List.dropLast_concat]
  refine ⟨?_, ?_⟩
  · rw [hproc, List.dropLast_concat]
  · rw [hproc, claimedSplice_concat ms lum _ hrole]

/-- **C1, witness.** A single-message conversation `[user "hi"]` with one
context block: the outgoing list is `[system ctx, user "hi"]`. -/
theorem c1_witness :
    processMessages [⟨"user", "hi"⟩] ["block"]
      = claimedSplice [⟨"user", "hi"⟩] (ragContextMessage ["block"]) :=
  (c1_splice_amended [⟨"user", "hi"⟩] ⟨"user", "hi"⟩ ["block"]
    (by decide) (by decide) (by decide) (by decide)).2

/-! ## Claim theorems: embedding client (C3) -/

/-- **C3, counterexample.** On the whitespace-only query `"  "` (API key
present, healthy provider), `generateQueryEmbedding` returns the fallback
dummy vector — an `ok` result, not an `InvalidInput` failure: the outer
`catch` (lines 110-113) swallows the validation error thrown at line 55. -/
theorem c3_counterexample :
    generateQueryEmbedding (EmbedEnv.mk true (some [1]) [0]) "  " = Except.ok [0] ∧
    generateQueryEmbedding (EmbedEnv.mk true (some [1]) [0]) "  "
      ≠ Except.error EmbedError.invalidInput ∧
    (trimString "  ").length = 0 := by
  refine ⟨rfl, ?_, by decide⟩
  intro h
  rw [show generateQueryEmbedding (EmbedEnv.mk true (some [1]) [0]) "  "
      = Except.ok [0] from rfl] at h
  exact Except.noConfusion h

/-- **C3, amended.** For every input that is empty after trimming, the body
of the function does raise the invalid-input error, but the outer handler
catches it and the operation returns the fallback dummy vector — the
operation never fails. -/
theorem c3_empty_query_fallback_amended (env : EmbedEnv) (query : String)
    (h : (trimString query).length = 0) :
    generateQueryEmbeddingTry env query = Except.error EmbedError.invalidInput ∧
    generateQueryEmbedding env query = Except.ok env.dummyVector := by
  have htry : generateQueryEmbeddingTry env query
      = Except.error EmbedError.invalidInput := by
    rw [generateQueryEmbeddingTry, if_pos h]
  exact ⟨htry, by rw [generateQueryEmbedding, htry]⟩

/-- **C3, witness.** At the concrete blank query `" "`. -/
theorem c3_witness :
    generateQueryEmbedding (EmbedEnv.mk true (some [1, 2]) [5]) " " = Except.ok [5] :=
  (c3_empty_query_fallback_amended (EmbedEnv.mk true (some [1, 2]) [5]) " " (by decide)).2

/-! ## Lemmas about the session store -/

lemma mapGet_cons_of_ne {β : Type} (x : String × β) (t : List (String × β))
    (k : String) (h : x.1 ≠ k) : mapGet (x :: t) k = mapGet t k := by
  rw [mapGet, mapGet, List.find?_cons_of_neg]
  simp [h]

lemma mapSet_cons_of_ne {β : Type} (x : String × β) (t : List (String × β))
    (k : String) (v : β) (h : x.1 ≠ k) :
    mapSet (x :: t) k v = x :: mapSet t k v := by
  simp only [mapSet, List.any_cons, decide_eq_false h, Bool.false_or]
  by_cases hany : (t.any fun p => decide (p.1 = k)) = true
  · rw [if_pos hany, if_pos hany]
    simp [if_neg h]
  · rw [if_neg hany, if_neg hany]
    simp

lemma mapGet_mapSet_self {β : Type} (m : List (String × β)) (k : String) (v : β) :
    mapGet (mapSet m k v) k = some v := by
  induction m with
  | nil => simp [mapSet, mapGet]
  | cons x t ih =>
    by_cases hx : x.1 = k
    · have hany : ((x :: t).any fun p => decide (p.1 = k)) = true := by
        simp [List.any_cons, hx]
      rw [mapSet, if_pos hany]
      simp [mapGet, List.map_cons, if_pos hx, List.find?_cons]
    · rw [mapSet_cons_of_ne x t k v hx, mapGet_cons_of_ne x _ k hx]
      exact ih

/-! ## Claim theorems: consolidation fallback (C4) -/

/-- **C4, counterexample.** With the store holding one session with an
*empty* document map and a request carrying the fresh session id `"A"`, the
consolidated union is empty, so the code skips `documentStore.set` (line 294
guards on `sessionDocs.size > 0`): afterwards the store has no entry for
`"A"`, although the claim promises the union is persisted under the
request's session id. -/
theorem c4_counterexample :
    (resolveRagDocs [("other", [])] (some "A")).1
      = some (consolidateAll [("other", [])]) ∧
    consolidateAll [("other", ([] : DocsMap))] = [] ∧
    (resolveRagDocs [("other", [])] (some "A")).2 = [("other", [])] ∧
    mapGet (resolveRagDocs [("other", [])] (some "A")).2 "A" = none := by
  refine ⟨rfl, rfl, rfl, rfl⟩

/-- **C4, amended.** When the resolved session has no documents (or the
request carries no session id) while the store is non-empty, the document
set used for retrieval is the union of all documents across all known
sessions; and if the request carries a session id *and that union is
non-empty*, then afterwards the store maps the session id to the
consolidated set. -/
theorem c4_consolidation_amended (store : DocStore) (sessionId : Option String)
    (hnodocs : ((match sessionId with
      | some sid => mapGet store sid
      | none => none).getD []).length = 0)
    (hne : 0 < store.length) :
    (resolveRagDocs store sessionId).1 = some (consolidateAll store) ∧
    (∀ sid, sessionId = some sid → consolidateAll store ≠ [] →
      mapGet (resolveRagDocs store sessionId).2 sid = some (consolidateAll store)) := by
  rcases sessionId with _ | sid
  · simp only [resolveRagDocs]
    rw [if_pos (And.intro hnodocs hne)]
    exact ⟨rfl, fun sid h => absurd h (by simp)⟩
  · simp only [resolveRagDocs]
    rw [if_pos (And.intro hnodocs hne)]
    by_cases hcons : 0 < (consolidateAll store).length
    · rw [if_pos hcons]
      refine ⟨rfl, ?_⟩
      intro sid' hsid' _
      injection hsid' with h
      subst h
      exact mapGet_mapSet_self store sid _
    · rw [if_neg hcons]
      refine ⟨rfl, ?_⟩
      intro sid' _ hcne
      exact absurd (List.length_pos.mpr hcne) hcons

/-- **C4, witness.** One other session `"S1"` holds one document and the
request carries the fresh session id `"A"`: the consolidated set is persisted
under `"A"`. -/
theorem c4_witness :
    mapGet (resolveRagDocs
        [("S1", [("d1", DocumentData.mk "d1" "f.pdf" ["c"] [[1]] "t")])]
        (some "A")).2 "A"
      = some (consolidateAll
          [("S1", [("d1", DocumentData.mk "d1" "f.pdf" ["c"] [[1]] "t")])]) :=
  ((c4_consolidation_amended
      [("S1", [("d1", DocumentData.mk "d1" "f.pdf" ["c"] [[1]] "t")])]
      (some "A") (by decide) (by decide)).2) "A" rfl (by decide)

/-! ## Lemmas about idle-session cleanup -/

lemma foldl_reclaim_characterization (now idleMs : Int) :
    ∀ (meta : List (String × Int)) (st : CleanupState),
      meta.foldl (reclaimIdleSession now idleMs) st =
        { sessionMeta := st.sessionMeta.filter fun p => !idleHit now idleMs meta p.1,
          documentStore := st.documentStore.filter fun p => !idleHit now idleMs meta p.1,
          files := st.files.filter fun f => !idleFileHit now idleMs meta f.1 } := by
  intro meta
  induction meta with
  | nil =>
    intro st
    simp [idleHit, idleFileHit]
  | cons e rest ih =>
    intro st
    rw [List.foldl_cons, ih, reclaimIdleSession]
    by_cases he : now - e.2 > idleMs
    · rw [if_pos he]
      simp only [List.filter_filter, CleanupState.mk.injEq]
      refine ⟨List.filter_congr ?_, List.filter_congr ?_, List.filter_congr ?_⟩
      · intro p _
        by_cases hk : p.1 = e.1
        · simp [idleHit, List.any_cons, he, hk]
        · have hk' : ¬ e.1 = p.1 := fun h => hk h.symm
          simp [idleHit, List.any_cons, he, hk, hk']
      · intro p _
        by_cases hk : p.1 = e.1
        · simp [idleHit, List.any_cons, he, hk]
        · have hk' : ¬ e.1 = p.1 := fun h => hk h.symm
          simp [idleHit, List.any_cons, he, hk, hk']
      · intro f _
        simp [idleFileHit, List.any_cons, he, Bool.and_comm]
    · rw [if_neg he]
      simp only [CleanupState.mk.injEq]
      refine ⟨List.filter_congr ?_, List.filter_congr ?_, List.filter_congr ?_⟩
      · intro p _
        simp [idleHit, List.any_cons, he]
      · intro p _
        simp [idleHit, List.any_cons, he]
      · intro f _
        simp [idleFileHit, List.any_cons, he]

lemma cleanupIdleSessions_eq (now idleMs : Int) (st : CleanupState) :
    cleanupIdleSessions now idleMs st =
      { sessionMeta := st.sessionMeta.filter fun p => !idleHit now idleMs st.sessionMeta p.1,
        documentStore := st.documentStore.filter fun p => !idleHit now idleMs st.sessionMeta p.1,
        files := (st.files.filter fun f => !idleFileHit now idleMs st.sessionMeta f.1).filter
          fun f => !decide (f.2 < now - orphanMs) } := by
  rw [cleanupIdleSessions, foldl_reclaim_characterization]

lemma mapGet_cons_self {β : Type} (x : String × β) (t : List (String × β))
    (k : String) (h : x.1 = k) : mapGet (x :: t) k = some x.2 := by
  rw [mapGet, List.find?_cons_of_pos _ (by simp [h])]
  rfl

lemma mapGet_filter_key {β : Type} (f : String → Bool) (l : List (String × β))
    (k : String) :
    mapGet (l.filter fun p => f p.1) k = if f k then mapGet l k else none := by
  induction l with
  | nil => simp [mapGet]
  | cons x t ih =>
    rw [List.filter_cons]
    by_cases hfx : f x.1 = true
    · rw [if_pos hfx]
      by_cases hx : x.1 = k
      · rw [mapGet_cons_self x _ k hx, mapGet_cons_self x t k hx, if_pos (hx ▸ hfx)]
      · rw [mapGet_cons_of_ne x _ k hx, mapGet_cons_of_ne x t k hx] at *
        exact ih
    · rw [if_neg hfx]
      by_cases hx : x.1 = k
      · subst hx
        rw [ih, if_neg hfx, if_neg hfx]
      · rw [mapGet_cons_of_ne x t k hx]
        exact ih

lemma keyVal_unique {β : Type} :
    ∀ (l : List (String × β)), (l.map Prod.fst).Nodup →
      ∀ (k : String) (v w : β), (k, v) ∈ l → (k, w) ∈ l → v = w := by
  intro l
  induction l with
  | nil => intro _ k v w hv _; cases hv
  | cons x t ih =>
    intro hnodup k v w hv hw
    rw [List.map_cons, List.nodup_cons] at hnodup
    rcases List.mem_cons.mp hv with hv1 | hv2 <;> rcases List.mem_cons.mp hw with hw1 | hw2
    · rw [← hv1] at hw1
      exact (Prod.mk.injEq _ _ _ _ ▸ hw1).2.symm
    · exact absurd (List.mem_map_of_mem Prod.fst hw2)
        (by rw [← hv1] at hnodup; exact hnodup.1)
    · exact absurd (List.mem_map_of_mem Prod.fst hv2)
        (by rw [← hw1] at hnodup; exact hnodup.1)
    · exact ih hnodup.2 k v w hv2 hw2

lemma mapGet_of_mem_nodup {β : Type} (l : List (String × β)) (k : String) (v : β)
    (hmem : (k, v) ∈ l) (hnodup : (l.map Prod.fst).Nodup) : mapGet l k = some v := by
  induction l with
  | nil => cases hmem
  | cons x t ih =>
    rw [List.map_cons, List.nodup_cons] at hnodup
    rcases List.mem_cons.mp hmem with h1 | h2
    · rw [← h1]
      exact mapGet_cons_self _ t k rfl
    · have hx : x.1 ≠ k := by
        intro hk
        exact hnodup.1 (hk ▸ List.mem_map_of_mem Prod.fst h2)
    
      rw [mapGet_cons_of_ne x t k hx]
      exact ih h2 hnodup.2

lemma idleHit_true_of_mem (now idleMs : Int) (meta : List (String × Int))
    (sid : String) (la : Int) (hmem : (sid, la) ∈ meta) (hidle : now - la > idleMs) :
    idleHit now idleMs meta sid = true := by
  rw [idleHit, List.any_eq_true]
  exact ⟨(sid, la), hmem, by simp [hidle]⟩

lemma idleHit_false_of_active (now idleMs : Int) (meta : List (String × Int))
    (sid : String) (la : Int) (hmem : (sid, la) ∈ meta)
    (hnodup : (meta.map Prod.fst).Nodup) (hact : ¬ (now - la > idleMs)) :
    idleHit now idleMs meta sid = false := by
  rw [idleHit, List.any_eq_false]
  rintro ⟨k, v⟩ hkv
  simp only [Bool.and_eq_true, decide_eq_true_eq, not_and]
  intro hv hk
  subst hk
  exact hact (keyVal_unique meta hnodup k v la hkv hmem ▸ hv)

lemma idleHit_false_of_absent (now idleMs : Int) (meta : List (String × Int))
    (sid : String) (habs : ∀ la : Int, (sid, la) ∉ meta) :
    idleHit now idleMs meta sid = false := by
  rw [idleHit, List.any_eq_false]
  rintro ⟨k, v⟩ hkv
  simp only [Bool.and_eq_true, decide_eq_true_eq, not_and]
  intro _ hk
  subst hk
  exact absurd hkv (habs v)

/-! ## Claim theorems: idle reclamation (C5) and its frame property (C10) -/

/-- **C5.** For every session tracked by the activity map (with distinct
session keys): when `now - lastActivity` strictly exceeds the threshold, the
sweep removes the session from both the activity tracker and the document
store and deletes every file whose name starts with `sessionId + "__"`; when
it does not (e.g. a session active `T - 1 ms` ago), the idle rule leaves the
session's tracker entry and document-store entry untouched; and,
independently of sessions, every file whose mtime is more than one hour in
the past is deleted on every invocation. -/
theorem c5_idle_reclamation (now idleMs : Int) (st : CleanupState) (sid : String)
    (la : Int) (hmem : (sid, la) ∈ st.sessionMeta)
    (hnodup : (st.sessionMeta.map Prod.fst).Nodup) :
    (now - la > idleMs →
      mapGet (cleanupIdleSessions now idleMs st).sessionMeta sid = none ∧
      mapGet (cleanupIdleSessions now idleMs st).documentStore sid = none ∧
      ∀ f ∈ (cleanupIdleSessions now idleMs st).files,
        strStartsWith f.1 (sid ++ "__") = false) ∧
    (¬ (now - la > idleMs) →
      mapGet (cleanupIdleSessions now idleMs st).sessionMeta sid = some la ∧
      mapGet (cleanupIdleSessions now idleMs st).documentStore sid
        = mapGet st.documentStore sid) ∧
    (∀ f ∈ st.files, f.2 < now - orphanMs →
      f ∉ (cleanupIdleSessions now idleMs st).files) := by
  rw [cleanupIdleSessions_eq]
  refine ⟨?_, ?_, ?_⟩
  · intro hidle
    have hhit : idleHit now idleMs st.sessionMeta sid = true :=
      idleHit_true_of_mem now idleMs st.sessionMeta sid la hmem hidle
    refine ⟨?_, ?_, ?_⟩
    · rw [mapGet_filter_key (fun k => !idleHit now idleMs st.sessionMeta k)]
      rw [if_neg (by simp [hhit])]
    · rw [mapGet_filter_key (fun k => !idleHit now idleMs st.sessionMeta k)]
      rw [if_neg (by simp [hhit])]
    · intro f hf
      simp only [List.mem_filter] at hf
      have hnohit : idleFileHit now idleMs st.sessionMeta f.1 = false := by
        rcases hb : idleFileHit now idleMs st.sessionMeta f.1
        · rfl
        · rw [hb] at hf
          simp at hf
      rw [idleFileHit, List.any_eq_false] at hnohit
      have := hnohit (sid, la) hmem
      simp only [Bool.and_eq_true, decide_eq_true_eq, not_and] at this
      rcases hs : strStartsWith f.1 (sid ++ "__")
      · rfl
      · exact absurd hs (this hidle)
  · intro hact
    have hhit : idleHit now idleMs st.sessionMeta sid = false :=
      idleHit_false_of_active now idleMs st.sessionMeta sid la hmem hnodup hact
    refine ⟨?_, ?_⟩
    · rw [mapGet_filter_key (fun k => !idleHit now idleMs st.sessionMeta k)]
      rw [if_pos (by simp [hhit])]
      exact mapGet_of_mem_nodup st.sessionMeta sid la hmem hnodup
    · rw [mapGet_filter_key (fun k => !idleHit now idleMs st.sessionMeta k)]
      rw [if_pos (by simp [hhit])]
  · intro f _ hold hpost
    simp only [List.mem_filter] at hpost
    have := hpost.2
    simp [hold] at this

/-- **C5, witness.** A session idle since epoch 0 at `now = 10^7 ms` with a
1000 ms threshold: its activity entry is gone after the sweep. -/
theorem c5_witness :
    mapGet (cleanupIdleSessions 10000000 1000
      (CleanupState.mk [("S", 0)] [("S", [])] [("S__a", 9999999)])).sessionMeta "S"
      = none :=
  ((c5_idle_reclamation 10000000 1000
      (CleanupState.mk [("S", 0)] [("S", [])] [("S__a", 9999999)]) "S" 0
      (by decide) (by decide)).1 (by decide)).1

/-- **C10, counterexample.** Session `"A__B"` is present in the document
store but has no activity entry; the tracked session `"A"` is idle.  The
file `"A__B__x"`, only a second old (so untouchable by the 1-hour orphan
sweep), is nevertheless deleted — by the *idle rule* for `"A"`, whose prefix
`"A__"` matches it.  So the idle rule, not only the orphan sweep, can touch
an untracked session's files (the document-store entry itself survives). -/
theorem c10_counterexample :
    (cleanupIdleSessions 10000000 1000
      (CleanupState.mk [("A", 0)]
        [("A__B", [("d", DocumentData.mk "d" "f" [] [] "t")])]
        [("A__B__x", 9999999)])).files = [] ∧
    ¬ ((9999999 : Int) < 10000000 - orphanMs) ∧
    "A__B" ∉ ([("A", (0 : Int))].map Prod.fst) ∧
    mapGet (cleanupIdleSessions 10000000 1000
      (CleanupState.mk [("A", 0)]
        [("A__B", [("d", DocumentData.mk "d" "f" [] [] "t")])]
        [("A__B__x", 9999999)])).documentStore "A__B"
      = some [("d", DocumentData.mk "d" "f" [] [] "t")] := by
  refine ⟨by decide, by decide, by decide, by decide⟩

/-- **C10, amended.** Idle reclamation scans only the activity tracker: a
session id present in the document store but absent from the tracker keeps
its document-store entry unchanged regardless of inactivity; and its on-disk
files survive provided they are not older than one hour *and* their name is
not also matched by the `sessionId + "__"` prefix of some idle tracked
session (the prefix-collision case the original claim overlooks). -/
theorem c10_frame_amended (now idleMs : Int) (st : CleanupState) (sid : String)
    (hmeta : ∀ la : Int, (sid, la) ∉ st.sessionMeta) :
    mapGet (cleanupIdleSessions now idleMs st).documentStore sid
      = mapGet st.documentStore sid ∧
    (∀ f ∈ st.files, ¬ (f.2 < now - orphanMs) →
      (∀ e ∈ st.sessionMeta, now - e.2 > idleMs →
        strStartsWith f.1 (e.1 ++ "__") = false) →
      f ∈ (cleanupIdleSessions now idleMs st).files) := by
  rw [cleanupIdleSessions_eq]
  refine ⟨?_, ?_⟩
  · rw [mapGet_filter_key (fun k => !idleHit now idleMs st.sessionMeta k)]
    rw [if_pos (by simp [idleHit_false_of_absent now idleMs st.sessionMeta sid hmeta])]
  · intro f hf hfresh hnopre
    simp only [List.mem_filter]
    refine ⟨⟨hf, ?_⟩, by simp [hfresh]⟩
    have hall : (st.sessionMeta.any fun e =>
        decide (now - e.2 > idleMs) && strStartsWith f.1 (e.1 ++ "__")) = false := by
      rw [List.any_eq_false]
      rintro ⟨k, v⟩ hkv
      simp only [Bool.and_eq_true, decide_eq_true_eq, not_and]
      intro hidle
      rw [hnopre (k, v) hkv hidle]
      simp
    rw [show idleFileHit now idleMs st.sessionMeta f.1 = false from hall]
    rfl

/-- **C10, witness.** Session `"A"` lives only in the document store (the
tracker holds just `"B"`): its store entry is untouched by the sweep. -/
theorem c10_witness :
    mapGet (cleanupIdleSessions 10000000 1000
      (CleanupState.mk [("B", 0)] [("A", [("d", DocumentData.mk "d" "f" [] [] "t")])]
        [("A__f", 9999999)])).documentStore "A"
      = mapGet (CleanupState.mk [("B", 0)]
          [("A", [("d", DocumentData.mk "d" "f" [] [] "t")])]
          [("A__f", 9999999)]).documentStore "A" :=
  (c10_frame_amended 10000000 1000
    (CleanupState.mk [("B", 0)] [("A", [("d", DocumentData.mk "d" "f" [] [] "t")])]
      [("A__f", 9999999)]) "A"
    (by intro la h; simp at h)).1

end PdfChat
